import Mathlib

/-!
Verification development for the visual-persistence attention encoder
(`vp_att_enc_mh`): a multi-head linear projection (`MH_Linear`), a
spatial/channel attention scorer (`SCAttEnc`), a multi-head attention
wrapper (`MultiHeadAttentionEnc`) and a layered refinement stack
(`VP_Refine_Module`).

Two complementary embeddings of the source are developed:

* a function-level exact-value model (`FModel`): tensors are index
  functions into ℚ; einsum contractions are `Finset.range` sums; the
  host framework's `exp` (inside softmax) and `sigmoid` are abstract
  parameter functions, constrained in each theorem by the properties the
  claim needs (e.g. a saturating exponential with an underflow
  threshold, matching the behaviour of the machine implementation);
  dropout is the identity, as in evaluation mode;

* a list-level shape-checked model (`LModel`): tensors are (nested)
  lists of ℚ per batch element, and every operation returns `Option`,
  failing exactly where the host tensor engine raises a shape error
  (mismatched einsum head dimension, linear-layer input width,
  normalization width, view/reshape size).
-/

namespace FModel

/-- Rectified linear unit. -/
def relu (x : ℚ) : ℚ := max x 0

/-- `MH_Linear.forward`, 3-D branch: `einsum('bhi,hio->bho', x, w) + b.unsqueeze(0)`.
`I` is the contracted (input-channel) extent, `w h i o` the per-head weight,
`bias h o` the per-head bias (broadcast over the batch index). -/
def mhLinear3 (I : ℕ) (w : ℕ → ℕ → ℕ → ℚ) (bias : ℕ → ℕ → ℚ)
    (x : ℕ → ℕ → ℕ → ℚ) : ℕ → ℕ → ℕ → ℚ :=
  fun b h o => (∑ i in Finset.range I, x b h i * w h i o) + bias h o

/-- `MH_Linear.forward`, 4-D branch: `einsum('bhmi,hio->bhmo', x, w)
+ b.unsqueeze(0).unsqueeze(-2)` (bias broadcast over batch and region). -/
def mhLinear4 (I : ℕ) (w : ℕ → ℕ → ℕ → ℚ) (bias : ℕ → ℕ → ℚ)
    (x : ℕ → ℕ → ℕ → ℕ → ℚ) : ℕ → ℕ → ℕ → ℕ → ℚ :=
  fun b h m o => (∑ i in Finset.range I, x b h m i * w h i o) + bias h o

/-- Parameters of `SCAttEnc`: the three `MH_Linear` layers
`attention_basic` (`mid_dims[0] → mid_dims[1]`), `attention_last`
(`mid_dims[-2] → 1`) and `attention_last2` (`mid_dims[-2] → mid_dims[-1]`).
`d0` and `d1` are the contracted extents `mid_dims[0]` and `mid_dims[-2]`. -/
structure SCParams where
  d0 : ℕ
  d1 : ℕ
  bW : ℕ → ℕ → ℕ → ℚ
  bB : ℕ → ℕ → ℚ
  lW : ℕ → ℕ → ℕ → ℚ
  lB : ℕ → ℕ → ℚ
  cW : ℕ → ℕ → ℕ → ℚ
  cB : ℕ → ℕ → ℚ

/-- `att_map = query.unsqueeze(-2) * key`: the query is broadcast over the
region index `m` and multiplied elementwise with the key. -/
def attJoint (q : ℕ → ℕ → ℕ → ℚ) (k : ℕ → ℕ → ℕ → ℕ → ℚ) :
    ℕ → ℕ → ℕ → ℕ → ℚ :=
  fun b h m i => q b h i * k b h m i

/-- `attention_basic(att_map)`: `MH_Linear` then `ReLU` (dropout is the
identity in evaluation mode). -/
def basicMap (p : SCParams) (q : ℕ → ℕ → ℕ → ℚ) (k : ℕ → ℕ → ℕ → ℕ → ℚ) :
    ℕ → ℕ → ℕ → ℕ → ℚ :=
  fun b h m o => relu (mhLinear4 p.d0 p.bW p.bB (attJoint q k) b h m o)

/-- Denominator of the scorer's masked mean pool:
`torch.sum(att_mask_ext, -2)`, the per-sample sum of the mask over the
region axis (no zero guard in the source). -/
def scDen (M : ℕ) (mask : ℕ → ℕ → ℚ) (b : ℕ) : ℚ :=
  ∑ m in Finset.range M, mask b m

/-- Masked mean pool of the joint feature map over the region axis:
`torch.sum(att_map * att_mask_ext, -2) / torch.sum(att_mask_ext, -2)`. -/
def poolMasked (M : ℕ) (mask : ℕ → ℕ → ℚ) (x : ℕ → ℕ → ℕ → ℕ → ℚ) :
    ℕ → ℕ → ℕ → ℚ :=
  fun b h c => (∑ m in Finset.range M, x b h m c * mask b m) / scDen M mask b

/-- Unmasked pool `att_map.mean(-2)`. -/
def poolMean (M : ℕ) (x : ℕ → ℕ → ℕ → ℕ → ℚ) : ℕ → ℕ → ℕ → ℚ :=
  fun b h c => (∑ m in Finset.range M, x b h m c) / (M : ℚ)

/-- The pooled feature: masked mean if a mask is supplied, else plain mean. -/
def pool (M : ℕ) (mask? : Option (ℕ → ℕ → ℚ)) (x : ℕ → ℕ → ℕ → ℕ → ℚ) :
    ℕ → ℕ → ℕ → ℚ :=
  match mask? with
  | some mk => poolMasked M mk x
  | none => poolMean M x

/-- Raw spatial logits: `attention_last(att_map).squeeze(-1)`
(the single output channel of the per-head projection). -/
def alphaRaw (p : SCParams) (q : ℕ → ℕ → ℕ → ℚ) (k : ℕ → ℕ → ℕ → ℕ → ℚ) :
    ℕ → ℕ → ℕ → ℚ :=
  fun b h m => mhLinear4 p.d1 p.lW p.lB (basicMap p q k) b h m 0

/-- `alpha_spatial.masked_fill(att_mask == 0, -1e9)`. -/
def maskFill (mask? : Option (ℕ → ℕ → ℚ)) (s : ℕ → ℕ → ℕ → ℚ) :
    ℕ → ℕ → ℕ → ℚ :=
  match mask? with
  | some mk => fun b h m => if mk b m = 0 then -(10 ^ 9 : ℚ) else s b h m
  | none => s

/-- Running maximum of `f 0, …, f n`. -/
def maxTo (f : ℕ → ℚ) : ℕ → ℚ
  | 0 => f 0
  | n + 1 => max (maxTo f n) (f (n + 1))

/-- `F.softmax(·, dim=-1)` on a row of `M` entries, with the standard
shift by the row maximum and an abstract exponential `e`. -/
def softmaxRow (e : ℚ → ℚ) (M : ℕ) (f : ℕ → ℚ) (m : ℕ) : ℚ :=
  e (f m - maxTo f (M - 1)) / ∑ j in Finset.range M, e (f j - maxTo f (M - 1))

/-- Spatial attention weights: mask-fill then softmax over the region axis. -/
def alphaSpatial (e : ℚ → ℚ) (p : SCParams) (M : ℕ)
    (mask? : Option (ℕ → ℕ → ℚ)) (q : ℕ → ℕ → ℕ → ℚ)
    (k : ℕ → ℕ → ℕ → ℕ → ℚ) : ℕ → ℕ → ℕ → ℚ :=
  fun b h m => softmaxRow e M (fun j => maskFill mask? (alphaRaw p q k) b h j) m

/-- Batched matrix multiplication `torch.matmul` on the two trailing axes,
contracting over `M`: used on `[B,H,*,M] × [B,H,M,D]`. -/
def matmulSq (M : ℕ) (A : ℕ → ℕ → ℕ → ℕ → ℚ) (V : ℕ → ℕ → ℕ → ℕ → ℚ) :
    ℕ → ℕ → ℕ → ℕ → ℚ :=
  fun b h i d => ∑ m in Finset.range M, A b h i m * V b h m d

/-- 4-D branch of the spatial-weight application:
`value2 = torch.matmul(alpha_spatial, value2)` on a square alpha map. -/
def applyAlpha4 (M : ℕ) (alpha : ℕ → ℕ → ℕ → ℕ → ℚ)
    (v2 : ℕ → ℕ → ℕ → ℕ → ℚ) : ℕ → ℕ → ℕ → ℕ → ℚ :=
  matmulSq M alpha v2

/-- 3-D branch of the spatial-weight application:
`torch.matmul(alpha_spatial.unsqueeze(-2), value2).squeeze(-2)`. -/
def applyAlpha3 (M : ℕ) (alpha : ℕ → ℕ → ℕ → ℚ)
    (v2 : ℕ → ℕ → ℕ → ℕ → ℚ) : ℕ → ℕ → ℕ → ℚ :=
  fun b h d => matmulSq M (fun b' h' _ m => alpha b' h' m) v2 b h 0 d

/-- Channel gate: `torch.sigmoid(attention_last2(att_map_pool))`, with an
abstract logistic `sg`. -/
def alphaChannel (sg : ℚ → ℚ) (p : SCParams) (M : ℕ)
    (mask? : Option (ℕ → ℕ → ℚ)) (q : ℕ → ℕ → ℕ → ℚ)
    (k : ℕ → ℕ → ℕ → ℕ → ℚ) : ℕ → ℕ → ℕ → ℚ :=
  fun b h c => sg (mhLinear3 p.d1 p.cW p.cB (pool M mask? (basicMap p q k)) b h c)

/-- `SCAttEnc.forward` on head-split inputs (the 3-D alpha path taken by
the encoder): `attn = value1 * value2 * alpha_channel` where `value2` has
been replaced by the spatial-weighted sum. -/
def scAtt (e sg : ℚ → ℚ) (p : SCParams) (M : ℕ) (q : ℕ → ℕ → ℕ → ℚ)
    (k : ℕ → ℕ → ℕ → ℕ → ℚ) (mask? : Option (ℕ → ℕ → ℚ))
    (v1 : ℕ → ℕ → ℕ → ℚ) (v2 : ℕ → ℕ → ℕ → ℕ → ℚ) : ℕ → ℕ → ℕ → ℚ :=
  fun b h d =>
    v1 b h d * applyAlpha3 M (alphaSpatial e p M mask? q k) v2 b h d *
      alphaChannel sg p M mask? q k b h d

end FModel

namespace LModel

/-- Dot product of two rows (`zipWith` truncates at the shorter row; the
checked callers only apply it at equal lengths). -/
def dotQ (xs ys : List ℚ) : ℚ := (List.zipWith (fun a c => a * c) xs ys).sum

/-- `nn.Linear` on one flat sample. `W` holds one row per output feature;
the call fails when the input width does not match the weight rows' width
(the engine's matmul shape error). -/
def linearChk (W : List (List ℚ)) (bias : List ℚ) (x : List ℚ) :
    Option (List ℚ) :=
  if W.all (fun row => row.length == x.length) then
    some (List.zipWith (fun row bo => dotQ row x + bo) W bias)
  else none

/-- `nn.CELU(1.3)` with an abstract exponential `ef`:
`x` for `x ≥ 0`, else `1.3 * (exp(x / 1.3) - 1)`. -/
def celu (ef : ℚ → ℚ) (x : ℚ) : ℚ :=
  if 0 ≤ x then x else 13 / 10 * (ef (x / (13 / 10)) - 1)

/-- `nn.GroupNorm(G, C)` on one sample with an abstract reciprocal square
root `rsq` applied to (variance + 1e-5): fails when the channel count
differs from `C` or `C` is not divisible by `G`; each channel is
normalized with the statistics of its group of `C / G` channels. -/
def groupNormChk (rsq : ℚ → ℚ) (G C : ℕ) (g2 b2 x : List ℚ) :
    Option (List ℚ) :=
  if x.length == C && C % G == 0 && !(G == 0) then
    let s := C / G
    some ((List.range C).map (fun c =>
      let μ := ((List.range s).map (fun j => x.getD (c / s * s + j) 0)).sum / (s : ℚ)
      let v := ((List.range s).map
        (fun j => (x.getD (c / s * s + j) 0 - μ) ^ 2)).sum / (s : ℚ)
      (x.getD c 0 - μ) * rsq (v + 1 / 100000) * g2.getD c 0 + b2.getD c 0))
  else none

/-- `nn.LayerNorm(C)` on one sample (eps 1e-5): fails when the input
width differs from the normalized shape, i.e. the affine weight width. -/
def layerNormChk (rsq : ℚ → ℚ) (g2 b2 x : List ℚ) : Option (List ℚ) :=
  if g2.length == x.length then
    let n := x.length
    let μ := x.sum / (n : ℚ)
    let v := (x.map (fun t => (t - μ) ^ 2)).sum / (n : ℚ)
    some ((List.range n).map (fun c =>
      (x.getD c 0 - μ) * rsq (v + 1 / 100000) * g2.getD c 0 + b2.getD c 0))
  else none

/-- An `MH_Linear` layer: `heads × inC × outC` weight and `heads × outC`
bias, stored with the declared extents of the parameter tensors. -/
structure MHLinear where
  heads : ℕ
  inC : ℕ
  outC : ℕ
  w : ℕ → ℕ → ℕ → ℚ
  b : ℕ → ℕ → ℚ

/-- `MH_Linear.forward` on a head-split sample `[heads, inC]`
(`einsum('bhi,hio->bho')` plus broadcast bias): fails when the head count
or channel width of the input disagrees with the parameter tensor. -/
def MHLinear.fwd2 (L : MHLinear) (x : List (List ℚ)) :
    Option (List (List ℚ)) :=
  if x.length == L.heads && x.all (fun r => r.length == L.inC) then
    some ((List.range L.heads).map (fun h =>
      (List.range L.outC).map (fun o =>
        ((List.range L.inC).map
          (fun i => (x.getD h []).getD i 0 * L.w h i o)).sum + L.b h o)))
  else none

/-- `MH_Linear.forward` on `[heads, M, inC]` (`einsum('bhmi,hio->bhmo')`
plus bias broadcast over the region axis). -/
def MHLinear.fwd3 (L : MHLinear) (x : List (List (List ℚ))) :
    Option (List (List (List ℚ))) :=
  if x.length == L.heads && x.all (fun rs => rs.all (fun r => r.length == L.inC)) then
    some ((List.range L.heads).map (fun h =>
      (x.getD h []).map (fun r =>
        (List.range L.outC).map (fun o =>
          ((List.range L.inC).map (fun i => r.getD i 0 * L.w h i o)).sum + L.b h o))))
  else none

/-- The scorer's three per-head projections. -/
structure SCAttEnc where
  basic : MHLinear
  last : MHLinear
  last2 : MHLinear

/-- `SCAttEnc.__init__(mid_dims, mid_dropout)`: the head count of all
three projections is the literal 8 —
`MH_Linear(mid_dims[0], mid_dims[1], 8)`, `MH_Linear(mid_dims[-2], 1, 8)`
and `MH_Linear(mid_dims[-2], mid_dims[-1], 8)`. -/
def mkSCAttEnc (midDims : List ℕ) (w1 : ℕ → ℕ → ℕ → ℚ) (b1 : ℕ → ℕ → ℚ)
    (w2 : ℕ → ℕ → ℕ → ℚ) (b2 : ℕ → ℕ → ℚ) (w3 : ℕ → ℕ → ℕ → ℚ)
    (b3 : ℕ → ℕ → ℚ) : SCAttEnc :=
  { basic := ⟨8, midDims.getD 0 0, midDims.getD 1 0, w1, b1⟩
    last := ⟨8, midDims.getD (midDims.length - 2) 0, 1, w2, b2⟩
    last2 := ⟨8, midDims.getD (midDims.length - 2) 0,
      midDims.getD (midDims.length - 1) 0, w3, b3⟩ }

/-- `query.unsqueeze(-2) * key`: the query row is broadcast along the
region axis and multiplied elementwise with the key; fails on mismatched
head counts or feature widths. -/
def bcastMul (q : List (List ℚ)) (k : List (List (List ℚ))) :
    Option (List (List (List ℚ))) :=
  if q.length == k.length &&
     (List.range k.length).all (fun h =>
       (k.getD h []).all (fun r => r.length == (q.getD h []).length)) then
    some ((List.range k.length).map (fun h =>
      (k.getD h []).map (fun r =>
        List.zipWith (fun a c => a * c) (q.getD h []) r)))
  else none

/-- Per-sample sum of a mask: the denominator of both masked means in the
source (`torch.sum(att_mask…, ...)`), used with no zero guard. -/
def vpDen (mk : List ℚ) : ℚ := mk.sum

/-- The scorer's pooled feature: masked mean over the region axis when a
mask is present (`sum(att_map * mask_ext, -2) / sum(mask_ext, -2)`), else
the plain mean `att_map.mean(-2)`. -/
def poolStep (mask : Option (List ℚ)) (am : List (List (List ℚ))) :
    Option (List (List ℚ)) :=
  match mask with
  | some mk =>
    if am.all (fun rs => rs.length == mk.length) then
      some (am.map (fun rs =>
        (List.range ((rs.headD []).length)).map (fun c =>
          ((List.range mk.length).map
            (fun m => (rs.getD m []).getD c 0 * mk.getD m 0)).sum / vpDen mk)))
    else none
  | none =>
    some (am.map (fun rs =>
      (List.range ((rs.headD []).length)).map (fun c =>
        (rs.map (fun r => r.getD c 0)).sum / (rs.length : ℚ))))

/-- `alpha_spatial.masked_fill(att_mask == 0, -1e9)`: entries whose mask
value is 0 are replaced by -10⁹. -/
def fillStep (mask : Option (List ℚ)) (s : List (List ℚ)) :
    Option (List (List ℚ)) :=
  match mask with
  | some mk =>
    if s.all (fun r => r.length == mk.length) then
      some (s.map (fun r =>
        List.zipWith (fun t w => if w = 0 then -(10 ^ 9 : ℚ) else t) r mk))
    else none
  | none => some s

/-- `F.softmax(·, dim=-1)` on one row, with the standard shift by the row
maximum and an abstract exponential `e`. -/
def softmaxL (e : ℚ → ℚ) (row : List ℚ) : List ℚ :=
  let mx := row.foldl max (row.headD 0)
  let z := (row.map (fun t => e (t - mx))).sum
  row.map (fun t => e (t - mx) / z)

/-- `torch.matmul(alpha.unsqueeze(-2), value2).squeeze(-2)` per head: the
spatial-weight-weighted sum of `value2` rows. -/
def ctxStep (alpha : List (List ℚ)) (v2 : List (List (List ℚ))) :
    Option (List (List ℚ)) :=
  if alpha.length == v2.length &&
     (List.range v2.length).all (fun h =>
       (v2.getD h []).length == (alpha.getD h []).length) then
    some ((List.range v2.length).map (fun h =>
      (List.range (((v2.getD h []).headD []).length)).map (fun d =>
        ((List.range ((alpha.getD h []).length)).map (fun m =>
          (alpha.getD h []).getD m 0 * ((v2.getD h []).getD m []).getD d 0)).sum)))
  else none

/-- `attn = value1 * value2 * alpha_channel`, elementwise on `[H, D]`
tensors; fails if the three extents disagree. -/
def mulStep (v1 ctx gate : List (List ℚ)) : Option (List (List ℚ)) :=
  if v1.length == ctx.length && (ctx.length == gate.length) &&
     (List.range v1.length).all (fun h =>
       ((v1.getD h []).length == (ctx.getD h []).length) &&
       ((ctx.getD h []).length == (gate.getD h []).length)) then
    some ((List.range v1.length).map (fun h =>
      (List.range ((v1.getD h []).length)).map (fun d =>
        (v1.getD h []).getD d 0 * (ctx.getD h []).getD d 0 *
          (gate.getD h []).getD d 0)))
  else none

/-- `SCAttEnc.forward` on one sample with head-split inputs
`query, value1 : [H, D]`, `key, value2 : [H, M, D]`, `mask : [M]` or
absent; dropout is the identity in evaluation mode. -/
def SCAttEnc.fwd (e sg : ℚ → ℚ) (A : SCAttEnc) (q : List (List ℚ))
    (k : List (List (List ℚ))) (mask : Option (List ℚ))
    (v1 : List (List ℚ)) (v2 : List (List (List ℚ))) :
    Option (List (List ℚ)) :=
  Option.bind (bcastMul q k) (fun am0 =>
  Option.bind (A.basic.fwd3 am0) (fun am1 =>
  let am := am1.map (fun rs => rs.map (fun r => r.map (fun t => max t 0)))
  Option.bind (poolStep mask am) (fun pooled =>
  Option.bind (A.last.fwd3 am) (fun sraw =>
  let sq := sraw.map (fun rs => rs.map (fun r => r.getD 0 0))
  Option.bind (fillStep mask sq) (fun sfill =>
  let alpha := sfill.map (softmaxL e)
  Option.bind (ctxStep alpha v2) (fun ctx =>
  Option.bind (A.last2.fwd2 pooled) (fun craw =>
  let gate := craw.map (fun r => r.map sg)
  mulStep v1 ctx gate)))))))

/-- One input-projection block of the wrapper:
`Linear(E, E) → CELU(1.3) → GroupNorm(heads, E)`. -/
structure FFBlock where
  W : List (List ℚ)
  bias : List ℚ
  g2 : List ℚ
  b2 : List ℚ

/-- `MultiHeadAttentionEnc`: four input-projection blocks and the scorer. -/
structure MHAEnc where
  embedDim : ℕ
  numHeads : ℕ
  pq : FFBlock
  pk : FFBlock
  pv1 : FFBlock
  pv2 : FFBlock
  attnNet : SCAttEnc

/-- `self.head_dim = embed_dim // self.num_heads` (integer division). -/
def MHAEnc.headDim (A : MHAEnc) : ℕ := A.embedDim / A.numHeads

/-- `MultiHeadAttentionEnc.__init__`: the scorer is built from
`att_mid_dim`; `att_heads` only sets `num_heads` and the group count. -/
def mkMHAEnc (embedDim attHeads : ℕ) (attMidDim : List ℕ)
    (pq pk pv1 pv2 : FFBlock) (w1 : ℕ → ℕ → ℕ → ℚ) (b1 : ℕ → ℕ → ℚ)
    (w2 : ℕ → ℕ → ℕ → ℚ) (b2 : ℕ → ℕ → ℚ) (w3 : ℕ → ℕ → ℕ → ℚ)
    (b3 : ℕ → ℕ → ℚ) : MHAEnc :=
  { embedDim := embedDim, numHeads := attHeads, pq := pq, pk := pk,
    pv1 := pv1, pv2 := pv2,
    attnNet := mkSCAttEnc attMidDim w1 b1 w2 b2 w3 b3 }

/-- Apply one input-projection block. -/
def inProj (ef rsq : ℚ → ℚ) (G C : ℕ) (p : FFBlock) (x : List ℚ) :
    Option (List ℚ) :=
  Option.bind (linearChk p.W p.bias x) (fun y =>
    groupNormChk rsq G C p.g2 p.b2 (y.map (celu ef)))

/-- `view(H, hd)` on a flat feature: fails unless `H * hd` elements. -/
def headSplit (H hd : ℕ) (x : List ℚ) : Option (List (List ℚ)) :=
  if H * hd == x.length then
    some ((List.range H).map (fun h =>
      (List.range hd).map (fun j => x.getD (h * hd + j) 0)))
  else none

/-- `view(M, H, hd).transpose` on per-region features → `[H, M, hd]`. -/
def headSplitR (H hd : ℕ) (rows : List (List ℚ)) :
    Option (List (List (List ℚ))) :=
  if rows.all (fun r => H * hd == r.length) then
    some ((List.range H).map (fun h =>
      rows.map (fun r => (List.range hd).map (fun j => r.getD (h * hd + j) 0))))
  else none

/-- `MultiHeadAttentionEnc.forward` on one sample: project the four
inputs, split into heads, run the scorer, flatten the per-head output
back to a flat embedding (output dropout is the identity in evaluation
mode). -/
def MHAEnc.fwd (e sg ef rsq : ℚ → ℚ) (A : MHAEnc) (query : List ℚ)
    (key : List (List ℚ)) (mask : Option (List ℚ)) (value1 : List ℚ)
    (value2 : List (List ℚ)) : Option (List ℚ) :=
  Option.bind (inProj ef rsq A.numHeads A.embedDim A.pq query) (fun qp =>
  Option.bind (key.mapM (inProj ef rsq A.numHeads A.embedDim A.pk)) (fun kp =>
  Option.bind (inProj ef rsq A.numHeads A.embedDim A.pv1 value1) (fun v1p =>
  Option.bind (value2.mapM (inProj ef rsq A.numHeads A.embedDim A.pv2)) (fun v2p =>
  Option.bind (headSplit A.numHeads A.headDim qp) (fun qh =>
  Option.bind (headSplitR A.numHeads A.headDim kp) (fun kh =>
  Option.bind (headSplit A.numHeads A.headDim v1p) (fun v1h =>
  Option.bind (headSplitR A.numHeads A.headDim v2p) (fun v2h =>
  Option.bind (A.attnNet.fwd e sg qh kh mask v1h v2h) (fun attn =>
  some attn.flatten)))))))))

/-- One refinement layer: the attention wrapper, the `bifeat_emb` fusion
block `Linear(2E, E) → ReLU → Dropout(0.3)` and its layer norm. -/
structure VPLayer where
  mha : MHAEnc
  bifW : List (List ℚ)
  bifB : List ℚ
  lnG : List ℚ
  lnB : List ℚ

/-- `VP_Refine_Module`: the layer list, the terminal projection
`Linear(E * (layer_num + 1), E)` and the final `LayerNorm(1024)`. -/
structure VPRefine where
  layers : List VPLayer
  projW : List (List ℚ)
  projB : List ℚ
  lnG : List ℚ
  lnB : List ℚ

/-- Column sums over the region axis (`torch.sum(·, 1)`) at width `C`. -/
def colSum (C : ℕ) (rows : List (List ℚ)) : List ℚ :=
  (List.range C).map (fun c => (rows.map (fun r => r.getD c 0)).sum)

/-- Initialization of the global feature (`VP_Refine_Module.forward`,
first two lines): when its last dimension is 1 it is replaced by
`sum(att_feats * att_mask.unsqueeze(-1), 1) / sum(att_mask.unsqueeze(-1), 1)`;
an absent mask makes the dereference fail, and a region-count mismatch
breaks the broadcast. -/
def vpInitChk (gv : List ℚ) (att : List (List ℚ)) (mask : Option (List ℚ)) :
    Option (List ℚ) :=
  if gv.length == 1 then
    match mask with
    | none => none
    | some mk =>
      if att.length == mk.length then
        some ((colSum ((att.headD []).length)
          (List.zipWith (fun r w => r.map (fun t => t * w)) att mk)).map
            (fun t => t / vpDen mk))
      else none
  else some gv

/-- Elementwise sum of two region-feature tensors (the residual `+`);
fails if the extents disagree. -/
def addRows (xs ys : List (List ℚ)) : Option (List (List ℚ)) :=
  if xs.length == ys.length &&
     (List.range xs.length).all (fun m =>
       (xs.getD m []).length == (ys.getD m []).length) then
    some (List.zipWith (fun r s => List.zipWith (fun a c => a + c) r s) xs ys)
  else none

/-- One iteration of the refinement loop: run the wrapper with
query = value1 = the global feature and key = value2 = the region
features; concatenate the broadcast updated global feature with the
region features, fuse, add residually, layer-normalize. -/
def VPLayer.step (e sg ef rsq : ℚ → ℚ) (l : VPLayer) (gv : List ℚ)
    (att : List (List ℚ)) (mask : Option (List ℚ)) :
    Option (List ℚ × List (List ℚ)) :=
  Option.bind (l.mha.fwd e sg ef rsq gv att mask gv att) (fun gv2 =>
  if att.all (fun r => r.length == gv2.length) then
    Option.bind ((att.map (fun r => gv2 ++ r)).mapM (linearChk l.bifW l.bifB))
      (fun ds =>
    Option.bind (addRows (ds.map (fun r => r.map (fun t => max t 0))) att)
      (fun att1 =>
    Option.bind (att1.mapM (layerNormChk rsq l.lnG l.lnB)) (fun att2 =>
    some (gv2, att2))))
  else none)

/-- The refinement loop over the layer list, carrying the accumulator of
per-layer global features (`feat_arr`). -/
def VPRefine.go (e sg ef rsq : ℚ → ℚ) (mask : Option (List ℚ)) :
    List VPLayer → List ℚ → List (List ℚ) → List (List ℚ) →
    Option (List (List ℚ) × List (List ℚ))
  | [], _gv, att, arr => some (arr, att)
  | l :: ls, gv, att, arr =>
    Option.bind (l.step e sg ef rsq gv att mask) (fun r =>
      VPRefine.go e sg ef rsq mask ls r.1 r.2 (arr ++ [r.1]))

/-- `VP_Refine_Module.forward` on one sample: initialize the global
feature, run the layers, concatenate all accumulated global features,
project back to the embedding width, apply the final layer norm. -/
def VPRefine.fwd (e sg ef rsq : ℚ → ℚ) (P : VPRefine) (gv : List ℚ)
    (att : List (List ℚ)) (mask : Option (List ℚ)) :
    Option (List ℚ × List (List ℚ)) :=
  Option.bind (vpInitChk gv att mask) (fun gv0 =>
  Option.bind (VPRefine.go e sg ef rsq mask P.layers gv0 att [gv0]) (fun r =>
  Option.bind (linearChk P.projW P.projB r.1.flatten) (fun g1 =>
  Option.bind (layerNormChk rsq P.lnG P.lnB g1) (fun g2 =>
  some (g2, r.2)))))

/-- Spec-side formulation of the mask-weighted mean of region features:
per channel, the mask-weighted sum of the per-region features divided by
the sum of the mask. -/
def maskedMeanSpec (att : List (List ℚ)) (mk : List ℚ) : List ℚ :=
  (List.range ((att.headD []).length)).map (fun c =>
    (∑ m in Finset.range mk.length, mk.getD m 0 * (att.getD m []).getD c 0) /
      mk.sum)

end LModel

/-!  Concrete instantiations used to exercise the models on explicit
inputs: a saturating exponential (positive on the normal range, exactly
zero below the underflow threshold, the behaviour of the machine `exp`
inside a shifted softmax), a constant stand-in sigmoid valued in (0,1),
and all-zero parameter bundles of small extents. -/

/-- A saturating exponential: 0 at or below -750, positive above. -/
def eSat : ℚ → ℚ := fun x => if x ≤ -750 then 0 else 1

/-- A constant function valued in (0, 1). -/
def sgHalf : ℚ → ℚ := fun _ => 1 / 2

/-- Zero function of two indices. -/
def zf2 : ℕ → ℕ → ℚ := fun _ _ => 0

/-- Zero function of three indices. -/
def zf3 : ℕ → ℕ → ℕ → ℚ := fun _ _ _ => 0

/-- Zero function of four indices. -/
def zf4 : ℕ → ℕ → ℕ → ℕ → ℚ := fun _ _ _ _ => 0

/-- Zero function on rationals. -/
def zq : ℚ → ℚ := fun _ => 0

/-- A 0/1 mask: region 0 valid, all later regions masked out. -/
def mk01 : ℕ → ℕ → ℚ := fun _ m => if m = 0 then 1 else 0

/-- All-zero scorer parameters with unit extents. -/
def p0 : FModel.SCParams := ⟨1, 1, zf3, zf2, zf3, zf2, zf3, zf2⟩

/-- Scorer parameters whose spatial-logit bias is -10⁹, so every raw
spatial score equals the masked-fill value. -/
def pBig : FModel.SCParams :=
  ⟨1, 1, zf3, zf2, zf3, fun _ _ => -(10 ^ 9 : ℚ), zf3, zf2⟩

/-- All-zero row of width `n`. -/
def zRow (n : ℕ) : List ℚ := List.replicate n 0

/-- All-zero matrix. -/
def zMat (m n : ℕ) : List (List ℚ) := List.replicate m (zRow n)

/-- All-zero input-projection block at embedding width 8. -/
def ffb0 : LModel.FFBlock := ⟨zMat 8 8, zRow 8, zRow 8, zRow 8⟩

/-- Concrete scorer with `mid_dims = [1, 1, 1]` and zero weights. -/
def scz : LModel.SCAttEnc := LModel.mkSCAttEnc [1, 1, 1] zf3 zf2 zf3 zf2 zf3 zf2

/-- Concrete wrapper: embedding 8, 8 heads, zero weights. -/
def mhaz : LModel.MHAEnc :=
  LModel.mkMHAEnc 8 8 [1, 1, 1] ffb0 ffb0 ffb0 ffb0 zf3 zf2 zf3 zf2 zf3 zf2

/-- Concrete refinement layer at embedding width 8. -/
def vplz : LModel.VPLayer := ⟨mhaz, zMat 8 16, zRow 8, zRow 8, zRow 8⟩

/-- Concrete one-layer refinement stack at embedding width 8
(terminal projection `Linear(8 * 2, 8)`). -/
def vpz : LModel.VPRefine := ⟨[vplz], zMat 8 16, zRow 8, zRow 8, zRow 8⟩

/-- Concrete head-split query/value at 8 heads, head width 1. -/
def q8 : List (List ℚ) := zMat 8 1

/-- Concrete head-split key/value2 at 8 heads, one region, width 1. -/
def k8 : List (List (List ℚ)) := List.replicate 8 [zRow 1]

namespace FModel

lemma le_maxTo (f : ℕ → ℚ) (n i : ℕ) (h : i ≤ n) : f i ≤ maxTo f n := by
  induction n with
  | zero =>
    have : i = 0 := Nat.le_zero.mp h
    subst this; exact le_refl _
  | succ k ih =>
    rcases Nat.lt_or_ge i (k + 1) with hl | hg
    · exact le_trans (ih (Nat.lt_succ_iff.mp hl)) (le_max_left _ _)
    · have : i = k + 1 := le_antisymm h hg
      subst this; exact le_max_right _ _

lemma maxTo_mem (f : ℕ → ℚ) (n : ℕ) : ∃ i, i ≤ n ∧ maxTo f n = f i := by
  induction n with
  | zero => exact ⟨0, le_refl _, rfl⟩
  | succ k ih =>
    rcases ih with ⟨i, hi, he⟩
    rcases max_cases (maxTo f k) (f (k + 1)) with ⟨h1, _⟩ | ⟨h1, _⟩
    · exact ⟨i, Nat.le_succ_of_le hi, by rw [maxTo, h1, he]⟩
    · exact ⟨k + 1, le_refl _, by rw [maxTo, h1]⟩

end FModel

/-- C4: the two spatial-weight application forms agree on 3-D alpha inputs:
the unsqueeze/matmul/squeeze reduction of the 3-D branch equals the plain
matrix-multiply form of the 4-D branch applied to the reshaped alpha, and
both equal the weighted sum of `value2` rows by the spatial weights. -/
theorem spatial_apply_forms_equiv (M : ℕ) (alpha : ℕ → ℕ → ℕ → ℚ)
    (v2 : ℕ → ℕ → ℕ → ℕ → ℚ) (b h d : ℕ) :
    FModel.applyAlpha3 M alpha v2 b h d =
      FModel.applyAlpha4 M (fun b' h' _ m => alpha b' h' m) v2 b h 0 d ∧
    FModel.applyAlpha3 M alpha v2 b h d =
      ∑ m in Finset.range M, alpha b h m * v2 b h m d := by
  constructor
  · rfl
  · simp [FModel.applyAlpha3, FModel.matmulSq]

/-- C5: the per-head affine projection gives identical per-head outputs on
a `[1, heads, in]` tensor (3-D einsum branch, bias broadcast over batch)
and on the corresponding `[1, heads, 1, in]` tensor replicated along a
singleton region axis (4-D einsum branch, bias broadcast over batch and
region). -/
theorem mh_linear_branches_agree (I : ℕ) (w : ℕ → ℕ → ℕ → ℚ)
    (bias : ℕ → ℕ → ℚ) (x : ℕ → ℕ → ℕ → ℚ) (h o : ℕ) :
    FModel.mhLinear4 I w bias (fun b h' _ i => x b h' i) 0 h 0 o =
      FModel.mhLinear3 I w bias x 0 h o := by
  simp [FModel.mhLinear3, FModel.mhLinear4]

/-- C6: when the supplied mask is all-ones over the region axis, the
scorer's masked mean pool equals the plain mean used when no mask is
supplied. -/
theorem masked_pool_all_ones_eq_mean (M : ℕ) (mask : ℕ → ℕ → ℚ)
    (x : ℕ → ℕ → ℕ → ℕ → ℚ) (b h c : ℕ)
    (hmask : ∀ m < M, mask b m = 1) :
    FModel.poolMasked M mask x b h c = FModel.poolMean M x b h c := by
  unfold FModel.poolMasked FModel.poolMean FModel.scDen
  have hnum : (∑ m in Finset.range M, x b h m c * mask b m) =
      ∑ m in Finset.range M, x b h m c := by
    refine Finset.sum_congr rfl (fun m hm => ?_)
    rw [hmask m (Finset.mem_range.mp hm), mul_one]
  have hden : (∑ m in Finset.range M, mask b m) = (M : ℚ) := by
    rw [Finset.sum_congr rfl (fun m hm => hmask m (Finset.mem_range.mp hm))]
    simp
  rw [hnum, hden]

/-- Witness for C6 at a concrete input. -/
theorem masked_pool_all_ones_eq_mean_witness :
    FModel.poolMasked 2 (fun _ _ => 1) (fun _ _ m _ => (m : ℚ)) 0 0 0 =
      FModel.poolMean 2 (fun _ _ m _ => (m : ℚ)) 0 0 0 :=
  masked_pool_all_ones_eq_mean 2 (fun _ _ => 1) (fun _ _ m _ => (m : ℚ)) 0 0 0
    (fun _ _ => rfl)

namespace FModel

lemma softmaxRow_sum_one (e : ℚ → ℚ) (M : ℕ) (f : ℕ → ℚ)
    (hZ : 0 < ∑ j in Finset.range M, e (f j - maxTo f (M - 1))) :
    ∑ m in Finset.range M, softmaxRow e M f m = 1 := by
  unfold softmaxRow
  rw [← Finset.sum_div, div_self (ne_of_gt hZ)]

end FModel

/-- C2 (amended): with a saturating exponential (positive on arguments
at least -700, exactly zero at or below -800, as the machine `exp`
behaves inside the shifted softmax), a 0/1 mask with at least one valid
region, and every valid region's raw spatial score within the normal
range (|score| < 350), the spatial weights sum to 1 over the region axis
and every masked region receives weight exactly 0. -/
theorem spatial_weights_sum_one_masked_zero (e : ℚ → ℚ)
    (p : FModel.SCParams) (M : ℕ) (mk : ℕ → ℕ → ℚ) (q : ℕ → ℕ → ℕ → ℚ)
    (k : ℕ → ℕ → ℕ → ℕ → ℚ) (b h : ℕ)
    (heNonneg : ∀ x, 0 ≤ e x)
    (hePos : ∀ x, -(700 : ℚ) ≤ x → 0 < e x)
    (heZero : ∀ x, x ≤ -(800 : ℚ) → e x = 0)
    (hmask : ∀ m, m < M → mk b m = 0 ∨ mk b m = 1)
    (hvalid : ∃ m, m < M ∧ mk b m = 1)
    (hrange : ∀ m, m < M → mk b m = 1 → |FModel.alphaRaw p q k b h m| < 350) :
    (∑ m in Finset.range M,
        FModel.alphaSpatial e p M (some mk) q k b h m) = 1 ∧
    ∀ m, m < M → mk b m = 0 →
      FModel.alphaSpatial e p M (some mk) q k b h m = 0 := by
  obtain ⟨mv, hmvM, hmv1⟩ := hvalid
  have hM : 0 < M := Nat.pos_of_ne_zero (by omega)
  have hfval : ∀ m, m < M → mk b m = 1 →
      FModel.maskFill (some mk) (FModel.alphaRaw p q k) b h m =
        FModel.alphaRaw p q k b h m := by
    intro m _ h1
    simp [FModel.maskFill, h1]
  have hfmask : ∀ m, m < M → mk b m = 0 →
      FModel.maskFill (some mk) (FModel.alphaRaw p q k) b h m =
        -(10 ^ 9 : ℚ) := by
    intro m _ h0
    simp [FModel.maskFill, h0]
  have hmv' : mv ≤ M - 1 := by omega
  have hvlow : -(350 : ℚ) <
      FModel.maskFill (some mk) (FModel.alphaRaw p q k) b h mv := by
    rw [hfval mv hmvM hmv1]
    have := abs_lt.mp (hrange mv hmvM hmv1)
    linarith [this.1]
  have hlow : -(350 : ℚ) <
      FModel.maxTo
        (fun j => FModel.maskFill (some mk) (FModel.alphaRaw p q k) b h j)
        (M - 1) :=
    lt_of_lt_of_le hvlow
      (FModel.le_maxTo
        (fun j => FModel.maskFill (some mk) (FModel.alphaRaw p q k) b h j)
        (M - 1) mv hmv')
  obtain ⟨iS, hiS, hmxEq⟩ :=
    FModel.maxTo_mem
      (fun j => FModel.maskFill (some mk) (FModel.alphaRaw p q k) b h j)
      (M - 1)
  have hiM : iS < M := by omega
  have hup :
      FModel.maxTo
        (fun j => FModel.maskFill (some mk) (FModel.alphaRaw p q k) b h j)
        (M - 1) < 350 := by
    rcases hmask iS hiM with h0 | h1
    · exfalso
      rw [hmxEq, hfmask iS hiM h0] at hlow
      norm_num at hlow
    · rw [hmxEq, hfval iS hiM h1]
      exact (abs_lt.mp (hrange iS hiM h1)).2
  have hterm0 : ∀ m, m < M → mk b m = 0 →
      e (FModel.maskFill (some mk) (FModel.alphaRaw p q k) b h m -
         FModel.maxTo
           (fun j => FModel.maskFill (some mk) (FModel.alphaRaw p q k) b h j)
           (M - 1)) = 0 := by
    intro m hm h0
    apply heZero
    rw [hfmask m hm h0]
    linarith
  have htermv : 0 <
      e (FModel.maskFill (some mk) (FModel.alphaRaw p q k) b h mv -
         FModel.maxTo
           (fun j => FModel.maskFill (some mk) (FModel.alphaRaw p q k) b h j)
           (M - 1)) := by
    apply hePos
    have := abs_lt.mp (hrange mv hmvM hmv1)
    rw [hfval mv hmvM hmv1]
    linarith [this.1]
  have hZ : 0 < ∑ j in Finset.range M,
      e ((fun j => FModel.maskFill (some mk) (FModel.alphaRaw p q k) b h j) j -
         FModel.maxTo
           (fun j => FModel.maskFill (some mk) (FModel.alphaRaw p q k) b h j)
           (M - 1)) :=
    Finset.sum_pos' (fun j _ => heNonneg _)
      ⟨mv, Finset.mem_range.mpr hmvM, htermv⟩
  constructor
  · exact FModel.softmaxRow_sum_one e M
      (fun j => FModel.maskFill (some mk) (FModel.alphaRaw p q k) b h j) hZ
  · intro m hm h0
    show FModel.softmaxRow e M
      (fun j => FModel.maskFill (some mk) (FModel.alphaRaw p q k) b h j) m = 0
    unfold FModel.softmaxRow
    rw [hterm0 m hm h0, zero_div]

/-- C2 counterexample to the unqualified claim: with the saturating
exponential and parameters whose spatial-logit bias is -10⁹ (so every
raw score coincides with the fill value), the masked region 1 of a
2-region sample receives spatial weight 1/2, not 0, even though its mask
entry is 0 and region 0 is valid. -/
theorem spatial_weights_masked_zero_counterexample :
    mk01 0 0 = 1 ∧ mk01 0 1 = 0 ∧ eSat (-(800 : ℚ)) = 0 ∧
    FModel.alphaSpatial eSat pBig 2 (some mk01) zf3 zf4 0 0 1 = 1 / 2 := by
  refine ⟨rfl, by norm_num [mk01], by norm_num [eSat], ?_⟩
  norm_num [FModel.alphaSpatial, FModel.softmaxRow, FModel.maskFill,
    FModel.alphaRaw, FModel.mhLinear4, FModel.maxTo, FModel.basicMap,
    FModel.attJoint, FModel.relu, mk01, pBig, zf3, zf4, zf2, eSat,
    Finset.sum_range_succ]

/-- Witness for the amended C2 at a concrete input. -/
theorem spatial_weights_sum_one_masked_zero_witness :
    (∑ m in Finset.range 2,
        FModel.alphaSpatial eSat p0 2 (some mk01) zf3 zf4 0 0 m) = 1 ∧
    ∀ m, m < 2 → mk01 0 m = 0 →
      FModel.alphaSpatial eSat p0 2 (some mk01) zf3 zf4 0 0 m = 0 := by
  have hraw : ∀ m, FModel.alphaRaw p0 zf3 zf4 0 0 m = 0 := by
    intro m
    norm_num [FModel.alphaRaw, FModel.mhLinear4, p0, zf3, zf2]
  exact spatial_weights_sum_one_masked_zero eSat p0 2 mk01 zf3 zf4 0 0
    (fun x => by unfold eSat; split <;> norm_num)
    (fun x hx => by
      unfold eSat
      rw [if_neg (by intro hc; linarith)]
      norm_num)
    (fun x hx => by unfold eSat; rw [if_pos (by linarith)])
    (fun m _ => by by_cases hm : m = 0 <;> simp [mk01, hm])
    ⟨0, by norm_num, by norm_num [mk01]⟩
    (fun m _ h1 => by rw [hraw m]; norm_num)

/-- C7: the scorer's output is the elementwise product of `value1`, the
spatial context vector (the spatial-weight-weighted sum of `value2` over
the region axis) and the channel gate, where the gate is the sigmoid of
the per-head projection of the pooled feature and hence lies strictly in
(0, 1) for a sigmoid valued in (0, 1). -/
theorem scorer_output_gated_product (e sg : ℚ → ℚ) (p : FModel.SCParams)
    (M : ℕ) (q : ℕ → ℕ → ℕ → ℚ) (k : ℕ → ℕ → ℕ → ℕ → ℚ)
    (mask? : Option (ℕ → ℕ → ℚ)) (v1 : ℕ → ℕ → ℕ → ℚ)
    (v2 : ℕ → ℕ → ℕ → ℕ → ℚ) (b h d : ℕ)
    (hsg : ∀ x, 0 < sg x ∧ sg x < 1) :
    FModel.scAtt e sg p M q k mask? v1 v2 b h d =
      v1 b h d *
        (∑ m in Finset.range M,
          FModel.alphaSpatial e p M mask? q k b h m * v2 b h m d) *
        sg (FModel.mhLinear3 p.d1 p.cW p.cB
          (FModel.pool M mask? (FModel.basicMap p q k)) b h d) ∧
    0 < FModel.alphaChannel sg p M mask? q k b h d ∧
    FModel.alphaChannel sg p M mask? q k b h d < 1 := by
  refine ⟨?_, (hsg _).1, (hsg _).2⟩
  simp [FModel.scAtt, FModel.applyAlpha3, FModel.matmulSq,
    FModel.alphaChannel]

/-- Witness for C7 at a concrete input. -/
theorem scorer_output_gated_product_witness :
    0 < FModel.alphaChannel sgHalf p0 1 none zf3 zf4 0 0 0 ∧
    FModel.alphaChannel sgHalf p0 1 none zf3 zf4 0 0 0 < 1 :=
  (scorer_output_gated_product eSat sgHalf p0 1 zf3 zf4 none zf3 zf4 0 0 0
    (fun _ => by norm_num [sgHalf])).2

namespace LModel

lemma linearChk_some_length {W : List (List ℚ)} {bias x y : List ℚ}
    (h : linearChk W bias x = some y) :
    y.length = min W.length bias.length := by
  unfold linearChk at h
  split at h
  · cases h
    simp [List.length_zipWith]
  · cases h

lemma layerNormChk_some_length {rsq : ℚ → ℚ} {g2 b2 x y : List ℚ}
    (h : layerNormChk rsq g2 b2 x = some y) : y.length = x.length := by
  unfold layerNormChk at h
  split at h
  · cases h
    simp
  · cases h

lemma getD_map_mul (r : List ℚ) (w : ℚ) (c : ℕ) :
    (r.map (fun t => t * w)).getD c 0 = r.getD c 0 * w := by
  rw [List.getD_eq_getElem?_getD, List.getD_eq_getElem?_getD,
    List.getElem?_map]
  cases h : r[c]? <;> simp

lemma weighted_colsum_eq (c : ℕ) (att : List (List ℚ)) (mk : List ℚ) :
    ((List.zipWith (fun r w => r.map (fun t => t * w)) att mk).map
      (fun r => r.getD c 0)).sum =
    ∑ m in Finset.range mk.length, mk.getD m 0 * (att.getD m []).getD c 0 := by
  induction att generalizing mk with
  | nil =>
    rw [List.zipWith_nil_left, List.map_nil, List.sum_nil]
    exact (Finset.sum_eq_zero (fun m _ => by simp)).symm
  | cons r att ih =>
    cases mk with
    | nil => simp
    | cons w mk =>
      simp only [List.zipWith_cons_cons, List.map_cons, List.sum_cons,
        List.length_cons]
      rw [Finset.sum_range_succ']
      simp only [List.getD_cons_succ, List.getD_cons_zero]
      rw [getD_map_mul, ih mk]
      ring

lemma getD_range_map {α : Type} (g : ℕ → α) (H h : ℕ) (d : α)
    (hh : h < H) : ((List.range H).map g).getD h d = g h := by
  simp [List.getD_eq_getElem?_getD, List.getElem?_map, List.getElem?_range hh]

lemma bcastMul_headsplit (H hd : ℕ) (x : List ℚ) (rows : List (List ℚ))
    (q : List (List ℚ)) (k : List (List (List ℚ)))
    (hq : headSplit H hd x = some q) (hk : headSplitR H hd rows = some k) :
    ∃ am, bcastMul q k = some am ∧ am.length = H := by
  unfold headSplit at hq
  split at hq
  · injection hq with hq1
    unfold headSplitR at hk
    split at hk
    · injection hk with hk1
      subst hq1
      subst hk1
      unfold bcastMul
      rw [if_pos ?hcnd]
      case hcnd =>
        rw [Bool.and_eq_true]
        refine ⟨by simp, ?_⟩
        apply List.all_eq_true.mpr
        intro h hmem
        have hhH : h < H := by simpa using hmem
        rw [getD_range_map _ _ _ _ hhH, getD_range_map _ _ _ _ hhH]
        apply List.all_eq_true.mpr
        intro r hr
        obtain ⟨r0, _, rfl⟩ := List.mem_map.mp hr
        simp
      exact ⟨_, rfl, by simp⟩
    · cases hk
  · cases hq

lemma sum_pos_of_mem_ne_zero (mk : List ℚ)
    (h01 : ∀ t ∈ mk, t = 0 ∨ t = 1) (hex : ∃ t ∈ mk, t ≠ 0) :
    0 < mk.sum := by
  induction mk with
  | nil =>
    rcases hex with ⟨t, ht, _⟩
    simp at ht
  | cons a l ih =>
    have hl0 : 0 ≤ l.sum := by
      apply List.sum_nonneg
      intro t ht
      rcases h01 t (List.mem_cons_of_mem _ ht) with h | h <;> rw [h] <;>
        norm_num
    rcases hex with ⟨t, ht, hne⟩
    rcases List.mem_cons.mp ht with rfl | htl
    · have ha1 : t = 1 := by
        rcases h01 t (List.mem_cons_self t l) with h | h
        · exact absurd h hne
        · exact h
      rw [List.sum_cons, ha1]
      linarith
    · have ha0 : 0 ≤ a := by
        rcases h01 a (List.mem_cons_self a l) with h | h <;> rw [h] <;>
          norm_num
      have := ih (fun t ht => h01 t (List.mem_cons_of_mem _ ht)) ⟨t, htl, hne⟩
      rw [List.sum_cons]
      linarith

end LModel

/-- C1: whenever a forward pass of the refinement stack succeeds, the
output global feature has the width of the terminal projection
`Linear(E * (layer_num + 1), E)`, i.e. the embedding dimension E,
regardless of the layer count: the terminal step concatenates the
accumulated global features, projects back to E, and layer-normalizes
(which preserves the width). -/
theorem vp_refine_out_dim (e sg ef rsq : ℚ → ℚ) (P : LModel.VPRefine)
    (E : ℕ) (gv : List ℚ) (att : List (List ℚ)) (mask : Option (List ℚ))
    (out : List ℚ × List (List ℚ))
    (hW : P.projW.length = E) (hB : P.projB.length = E)
    (h : LModel.VPRefine.fwd e sg ef rsq P gv att mask = some out) :
    out.1.length = E := by
  unfold LModel.VPRefine.fwd at h
  obtain ⟨gv0, h0, h1⟩ := Option.bind_eq_some.mp h
  obtain ⟨r, h2, h3⟩ := Option.bind_eq_some.mp h1
  obtain ⟨g1, h4, h5⟩ := Option.bind_eq_some.mp h3
  obtain ⟨g2, h6, h7⟩ := Option.bind_eq_some.mp h5
  cases h7
  have hl1 := LModel.linearChk_some_length h4
  have hl2 := LModel.layerNormChk_some_length h6
  show g2.length = E
  rw [hl2, hl1, hW, hB, min_self]

/-- Witness for C1: a full forward pass of a concrete one-layer stack at
embedding width 8 succeeds and its output global feature has width 8. -/
theorem vp_refine_out_dim_witness :
    LModel.VPRefine.fwd eSat sgHalf zq zq vpz (zRow 8) [zRow 8]
      (some [1]) = some (zRow 8, [zRow 8]) ∧
    ((zRow 8, ([zRow 8] : List (List ℚ))).1.length = 8) := by
  have hEval : LModel.VPRefine.fwd eSat sgHalf zq zq vpz (zRow 8) [zRow 8]
      (some [1]) = some (zRow 8, [zRow 8]) := by
    set_option maxRecDepth 100000 in with_unfolding_all rfl
  exact ⟨hEval, vp_refine_out_dim eSat sgHalf zq zq vpz 8 (zRow 8) [zRow 8]
    (some [1]) (zRow 8, [zRow 8]) (by simp [vpz, zMat])
    (by simp [vpz, zRow]) hEval⟩

/-- C3: when the incoming global feature is a degenerate placeholder of
width 1 and a mask of matching region count is present, the global
feature used before layer 0 is exactly the mask-weighted mean of the
region features: per channel, the mask-weighted sum over the region axis
divided by the sum of the mask. -/
theorem vp_degenerate_init_masked_mean (gv : List ℚ) (att : List (List ℚ))
    (mk : List ℚ) (hgv : gv.length = 1) (hlen : att.length = mk.length) :
    LModel.vpInitChk gv att (some mk) =
      some (LModel.maskedMeanSpec att mk) := by
  unfold LModel.vpInitChk
  simp only [hgv, hlen, beq_self_eq_true, if_true]
  unfold LModel.colSum LModel.maskedMeanSpec LModel.vpDen
  rw [List.map_map]
  apply congrArg
  apply List.map_congr_left
  intro c _
  show (((List.zipWith (fun r w => r.map (fun t => t * w)) att mk).map
      (fun r => r.getD c 0)).sum) / mk.sum = _
  rw [LModel.weighted_colsum_eq]

/-- Witness for C3 at a concrete input. -/
theorem vp_degenerate_init_masked_mean_witness :
    LModel.vpInitChk [0] [[2, 4], [6, 8]] (some [1, 1]) =
      some (LModel.maskedMeanSpec [[2, 4], [6, 8]] [1, 1]) :=
  vp_degenerate_init_masked_mean [0] [[2, 4], [6, 8]] [1, 1] rfl rfl

/-- C8: the scorer built by `SCAttEnc.__init__` has all three per-head
projections at head count 8 independent of the wrapper's `att_heads`;
consequently, on head-split inputs produced with any head count `H ≠ 8`,
the scorer's forward pass is a shape error (the head extent of the
head-split joint feature does not match the projections' head extent). -/
theorem scorer_heads_fixed_eight (midDims : List ℕ)
    (w1 : ℕ → ℕ → ℕ → ℚ) (b1 : ℕ → ℕ → ℚ) (w2 : ℕ → ℕ → ℕ → ℚ)
    (b2 : ℕ → ℕ → ℚ) (w3 : ℕ → ℕ → ℕ → ℚ) (b3 : ℕ → ℕ → ℚ)
    (e sg : ℚ → ℚ) (H hd : ℕ) (x : List ℚ) (rows : List (List ℚ))
    (q : List (List ℚ)) (k : List (List (List ℚ)))
    (mask : Option (List ℚ)) (v1 : List (List ℚ))
    (v2 : List (List (List ℚ))) (hH : H ≠ 8)
    (hq : LModel.headSplit H hd x = some q)
    (hk : LModel.headSplitR H hd rows = some k) :
    (LModel.mkSCAttEnc midDims w1 b1 w2 b2 w3 b3).basic.heads = 8 ∧
    (LModel.mkSCAttEnc midDims w1 b1 w2 b2 w3 b3).last.heads = 8 ∧
    (LModel.mkSCAttEnc midDims w1 b1 w2 b2 w3 b3).last2.heads = 8 ∧
    LModel.SCAttEnc.fwd e sg (LModel.mkSCAttEnc midDims w1 b1 w2 b2 w3 b3)
      q k mask v1 v2 = none := by
  refine ⟨rfl, rfl, rfl, ?_⟩
  obtain ⟨am, ham, hamlen⟩ := LModel.bcastMul_headsplit H hd x rows q k hq hk
  have h3 : (LModel.mkSCAttEnc midDims w1 b1 w2 b2 w3 b3).basic.fwd3 am =
      none := by
    unfold LModel.MHLinear.fwd3
    rw [if_neg]
    simp [LModel.mkSCAttEnc, hamlen, hH]
  simp [LModel.SCAttEnc.fwd, ham, h3]

/-- Witness for C8: splitting a width-8 feature into 4 heads of width 2
succeeds, and the scorer then rejects the 4-head inputs. -/
theorem scorer_heads_fixed_eight_witness :
    LModel.headSplit 4 2 (zRow 8) = some (zMat 4 2) ∧
    LModel.SCAttEnc.fwd eSat sgHalf scz (zMat 4 2)
      (List.replicate 4 [zRow 2]) (some [1]) (zMat 4 2)
      (List.replicate 4 [zRow 2]) = none := by
  have hq : LModel.headSplit 4 2 (zRow 8) = some (zMat 4 2) := by
    with_unfolding_all rfl
  have hk : LModel.headSplitR 4 2 [zRow 8] =
      some (List.replicate 4 [zRow 2]) := by
    with_unfolding_all rfl
  exact ⟨hq, (scorer_heads_fixed_eight [1, 1, 1] zf3 zf2 zf3 zf2 zf3 zf2
    eSat sgHalf 4 2 (zRow 8) [zRow 8] (zMat 4 2)
    (List.replicate 4 [zRow 2]) (some [1]) (zMat 4 2)
    (List.replicate 4 [zRow 2]) (by norm_num) hq hk).2.2.2⟩

/-- C9: a forward call of the refinement stack with a degenerate
(width-1) global feature and an absent mask fails, because the
initialization dereferences the mask unconditionally — while the
downstream scorer itself accepts an absent mask (shown on a concrete
8-head input, where it succeeds via the plain-mean pooling path). -/
theorem vp_degenerate_mask_required (e sg ef rsq : ℚ → ℚ)
    (P : LModel.VPRefine) (gv : List ℚ) (att : List (List ℚ))
    (hgv : gv.length = 1) :
    LModel.VPRefine.fwd e sg ef rsq P gv att none = none ∧
    LModel.SCAttEnc.fwd eSat sgHalf scz q8 k8 none q8 k8 =
      some (zMat 8 1) := by
  constructor
  · unfold LModel.VPRefine.fwd LModel.vpInitChk
    simp [hgv]
  · with_unfolding_all rfl

/-- Witness for C9 at a concrete input. -/
theorem vp_degenerate_mask_required_witness :
    ([0] : List ℚ).length = 1 ∧
    LModel.VPRefine.fwd eSat sgHalf zq zq vpz [0] [zRow 8] none = none :=
  ⟨rfl, (vp_degenerate_mask_required eSat sgHalf zq zq vpz [0] [zRow 8]
    rfl).1⟩

/-- C10: both masked-mean denominators — the scorer's pooled-feature
denominator and the refinement stack's degenerate-initialization
denominator — are the unguarded per-sample sum of the mask: they vanish
on an all-zero mask row, and are positive (so the division is
well-defined) exactly under the precondition that some region of a 0/1
mask is valid. -/
theorem masked_mean_denominators_unguarded (M : ℕ) :
    (∀ (mask : ℕ → ℕ → ℚ) (b : ℕ), (∀ m, m < M → mask b m = 0) →
       FModel.scDen M mask b = 0) ∧
    (∀ (mask : ℕ → ℕ → ℚ) (b : ℕ), (∀ m, m < M → mask b m = 0 ∨ mask b m = 1) →
       (∃ m, m < M ∧ mask b m ≠ 0) → 0 < FModel.scDen M mask b) ∧
    (∀ mk : List ℚ, (∀ t ∈ mk, t = 0) → LModel.vpDen mk = 0) ∧
    (∀ mk : List ℚ, (∀ t ∈ mk, t = 0 ∨ t = 1) → (∃ t ∈ mk, t ≠ 0) →
       0 < LModel.vpDen mk) := by
  refine ⟨?_, ?_, ?_, ?_⟩
  · intro mask b h0
    exact Finset.sum_eq_zero (fun m hm => h0 m (Finset.mem_range.mp hm))
  · intro mask b h01 hex
    obtain ⟨m, hm, hne⟩ := hex
    apply Finset.sum_pos'
    · intro j hj
      rcases h01 j (Finset.mem_range.mp hj) with h | h <;> rw [h] <;>
        norm_num
    · refine ⟨m, Finset.mem_range.mpr hm, ?_⟩
      rcases h01 m hm with h | h
      · exact absurd h hne
      · rw [h]
        norm_num
  · intro mk h0
    exact List.sum_eq_zero h0
  · intro mk h01 hex
    exact LModel.sum_pos_of_mem_ne_zero mk h01 hex

/-- Witness for C10 at concrete inputs. -/
theorem masked_mean_denominators_unguarded_witness :
    FModel.scDen 2 zf2 0 = 0 ∧ 0 < FModel.scDen 2 mk01 0 ∧
    LModel.vpDen [0, 0] = 0 ∧ 0 < LModel.vpDen [1, 0] := by
  refine ⟨?_, ?_, ?_, ?_⟩
  · exact (masked_mean_denominators_unguarded 2).1 zf2 0 (fun m _ => rfl)
  · exact (masked_mean_denominators_unguarded 2).2.1 mk01 0
      (fun m _ => by by_cases hm : m = 0 <;> simp [mk01, hm])
      ⟨0, by norm_num, by norm_num [mk01]⟩
  · apply (masked_mean_denominators_unguarded 2).2.2.1
    intro t ht
    simp only [List.mem_cons, List.not_mem_nil, or_false, or_self] at ht
    exact ht
  · apply (masked_mean_denominators_unguarded 2).2.2.2
    · intro t ht
      simp only [List.mem_cons, List.not_mem_nil, or_false] at ht
      rcases ht with rfl | rfl
      · right
        rfl
      · left
        rfl
    · exact ⟨1, by simp, by norm_num⟩
